import Mathlib

/-!
Verification of the effect-solutions documentation tool core.

The repository exposes a fixed documentation corpus through a CLI
(`renderDocList` / `renderDocs` / `openIssue`) and an MCP tool server
(`search_effect_solutions`, `open_issue`, `get_help`) spoken over a
line-delimited JSON-RPC protocol.  The integration-test client
(`McpClient` in `packages/mcp/src/server.test.ts`) buffers the server's
stdout byte stream, splits it on newlines and correlates responses with
pending request ids.

This file gives a shallow embedding of those components:

* a JSON value type with a serializer matching the canonical
  whitespace-free output of `JSON.stringify` and a parser modelling
  `JSON.parse` on that canonical format;
* UTF-8 encoding/decoding modelling `TextDecoder.decode` called once per
  chunk (no `stream: true`), as the test client does;
* the line-splitting buffer, pending-request table and response handling
  of `McpClient`;
* spec-modelled definitions (the implementation of the doc store,
  renderer, search, issue service and protocol state machine is not part
  of the sources available here, only its tests and the spec) for
  `renderDocs`, `search`, `fileIssue` and the protocol front end.
-/

/-! ## JSON values

`Json` is a mutual inductive (object fields and array elements live in
their own types) so that all functions over it are structural and reduce
inside the kernel.  Numbers are naturals: every number the modelled
tools emit (ids, scores) is a natural.  Strings are lists of characters.
-/

mutual
inductive Json where
  | null : Json
  | bool (b : Bool) : Json
  | num (n : Nat) : Json
  | str (s : List Char) : Json
  | arr (xs : JsonList) : Json
  | obj (fs : JsonObj) : Json
deriving DecidableEq
inductive JsonList where
  | nil : JsonList
  | cons (hd : Json) (tl : JsonList) : JsonList
deriving DecidableEq
inductive JsonObj where
  | nil : JsonObj
  | cons (k : List Char) (v : Json) (tl : JsonObj) : JsonObj
deriving DecidableEq
end

/-- Build a `JsonList` from a `List Json`. -/
def toJL : List Json → JsonList
  | [] => .nil
  | v :: vs => .cons v (toJL vs)

/-- Build a `Json` array from a `List Json`. -/
def jarr (vs : List Json) : Json := .arr (toJL vs)

/-- Build a `JsonObj` from an association list. -/
def toJO : List (List Char × Json) → JsonObj
  | [] => .nil
  | (k, v) :: fs => .cons k v (toJO fs)

/-- Build a `Json` object from an association list. -/
def jobj (fs : List (List Char × Json)) : Json := .obj (toJO fs)

/-- Field access on a parsed JSON object, modelling JavaScript property
access on the result of `JSON.parse`: on duplicate keys the last
occurrence wins, on non-objects the result is `none` (`undefined`). -/
def objGet : Json → List Char → Option Json
  | .obj fs, key => objGetGo fs key
  | _, _ => none
where objGetGo : JsonObj → List Char → Option Json
  | .nil, _ => none
  | .cons k v tl, key =>
    match objGetGo tl key with
    | some r => some r
    | none => if k = key then some v else none

/-! ## Serialization (canonical `JSON.stringify` output) -/

/-- One digit character, `0`–`9`. -/
def digitCh : Nat → Char
  | 0 => '0' | 1 => '1' | 2 => '2' | 3 => '3' | 4 => '4'
  | 5 => '5' | 6 => '6' | 7 => '7' | 8 => '8' | _ => '9'

/-- Decimal digits of `n`, most significant first.  Fuel-structured so
that it reduces in the kernel; `fuel ≥ n + 1` is always enough. -/
def natDigitsAux : Nat → Nat → List Char
  | 0, _ => []
  | fuel + 1, n =>
    if n < 10 then [digitCh n]
    else natDigitsAux fuel (n / 10) ++ [digitCh (n % 10)]

/-- Decimal representation of a natural, e.g. `natDigits 42 = ['4','2']`. -/
def natDigits (n : Nat) : List Char := natDigitsAux (n + 1) n

/-- Escape one character inside a JSON string literal the way
`JSON.stringify` does for `"`, `\`, newline, tab and carriage return;
the remaining control characters (which it escapes as `\uXXXX` or
`\b`/`\f`) are excluded by `wfJ` below, so they never reach a
serialized string in the statements proved here. -/
def escCh (c : Char) : List Char :=
  if c = '"' ∨ c = '\\' then ['\\', c]
  else if c = '\n' then ['\\', 'n']
  else if c = '\t' then ['\\', 't']
  else if c = '\r' then ['\\', 'r']
  else [c]

/-- Escape a whole string body. -/
def escChars : List Char → List Char
  | [] => []
  | c :: cs => escCh c ++ escChars cs

mutual
/-- Serialize a JSON value exactly as the compact (no added whitespace)
`JSON.stringify` does. -/
def serJ : Json → List Char
  | .null => "null".data
  | .bool true => "true".data
  | .bool false => "false".data
  | .num n => natDigits n
  | .str s => '"' :: escChars s ++ ['"']
  | .arr .nil => ['[', ']']
  | .arr (.cons v vs) => '[' :: serJ v ++ serLT vs ++ [']']
  | .obj .nil => ['\x7b', '\x7d']
  | .obj (.cons k v fs) =>
    '\x7b' :: (('"' :: escChars k ++ ['"', ':']) ++ serJ v) ++ serOT fs ++ ['\x7d']
/-- Serialize the tail of an array: a leading comma before every
element after the first. -/
def serLT : JsonList → List Char
  | .nil => []
  | .cons v vs => ',' :: serJ v ++ serLT vs
/-- Serialize the tail of an object. -/
def serOT : JsonObj → List Char
  | .nil => []
  | .cons k v fs => ',' :: (('"' :: escChars k ++ ['"', ':']) ++ serJ v) ++ serOT fs
end

/-- String form of a serialized JSON value. -/
def serializeJson (v : Json) : String := String.mk (serJ v)

/-- Well-formedness for the serializer: no control characters other
than newline, tab and carriage return inside strings (the rest
`JSON.stringify` would escape differently).  All values produced by the
modelled tools satisfy it. -/
def wfChars (s : List Char) : Bool :=
  s.all (fun c => decide (32 ≤ c.toNat) || decide (c = '\n')
    || decide (c = '\t') || decide (c = '\r'))

mutual
/-- All strings inside the value are control-character free. -/
def wfJ : Json → Bool
  | .null => true
  | .bool _ => true
  | .num _ => true
  | .str s => wfChars s
  | .arr xs => wfL xs
  | .obj fs => wfO fs
def wfL : JsonList → Bool
  | .nil => true
  | .cons v vs => wfJ v && wfL vs
def wfO : JsonObj → Bool
  | .nil => true
  | .cons k v fs => wfChars k && wfJ v && wfO fs
end

/-! ## Parsing (`JSON.parse` on the canonical format)

The parser consumes exactly the grammar the serializer emits (it does
not skip inter-token whitespace and rejects `\uXXXX` escapes, which the
serializer never produces); it is used positively only on serializer
output, and negatively (returning `none`) to model lines that
`JSON.parse` rejects.  It is fuel-structured so it reduces in the
kernel; `parseJson` supplies enough fuel for any input it can accept.
-/

/-- Translate one escape character following a backslash. -/
def unescCh (e : Char) : Option Char :=
  if e = '"' ∨ e = '\\' ∨ e = '/' then some e
  else if e = 'n' then some '\n'
  else if e = 't' then some '\t'
  else if e = 'r' then some '\r'
  else if e = 'b' then some '\x08'
  else if e = 'f' then some '\x0c'
  else none

mutual
/-- Parse a string body up to (and consuming) the closing quote. -/
def parseStrBody : List Char → Option (List Char × List Char)
  | [] => none
  | c :: rest =>
    if c = '"' then some ([], rest)
    else if c = '\\' then parseEscTail rest
    else (parseStrBody rest).map (fun p => (c :: p.1, p.2))
/-- Parse the remainder of a string body after a backslash. -/
def parseEscTail : List Char → Option (List Char × List Char)
  | [] => none
  | e :: rest =>
    match unescCh e with
    | some u => (parseStrBody rest).map (fun p => (u :: p.1, p.2))
    | none => none
end

/-- Numeric value of a digit run. -/
def digitsVal (ds : List Char) : Nat :=
  ds.foldl (fun a c => 10 * a + (c.toNat - 48)) 0

/-- Parse a natural number token (maximal digit run). -/
def parseNatTok (input : List Char) : Option (Nat × List Char) :=
  let ds := input.takeWhile Char.isDigit
  if ds.isEmpty then none
  else some (digitsVal ds, input.dropWhile Char.isDigit)

/-- Match an expected literal tail, returning the remainder. -/
def stripPre : List Char → List Char → Option (List Char)
  | [], rest => some rest
  | _ :: _, [] => none
  | p :: ps, c :: cs => if c = p then stripPre ps cs else none

mutual
/-- Parse one JSON value. -/
def parseVal : Nat → List Char → Option (Json × List Char)
  | 0, _ => none
  | _ + 1, [] => none
  | fuel + 1, c :: rest =>
    if c = 'n' then (stripPre ['u', 'l', 'l'] rest).map (fun r => (.null, r))
    else if c = 't' then (stripPre ['r', 'u', 'e'] rest).map (fun r => (.bool true, r))
    else if c = 'f' then (stripPre ['a', 'l', 's', 'e'] rest).map (fun r => (.bool false, r))
    else if c = '"' then (parseStrBody rest).map (fun p => (.str p.1, p.2))
    else if c = '[' then
      match rest with
      | [] => none
      | d :: r' =>
        if d = ']' then some (.arr .nil, r')
        else
          match parseVal fuel rest with
          | none => none
          | some (v, r1) =>
            match parseArrTail fuel r1 with
            | none => none
            | some (vs, r2) => some (.arr (.cons v vs), r2)
    else if c = '\x7b' then
      match rest with
      | [] => none
      | d :: r' =>
        if d = '\x7d' then some (.obj .nil, r')
        else if d = '"' then
          match parseStrBody r' with
          | none => none
          | some (k, r1) =>
            match r1 with
            | [] => none
            | e :: r2 =>
              if e = ':' then
                match parseVal fuel r2 with
                | none => none
                | some (v, r3) =>
                  match parseObjTail fuel r3 with
                  | none => none
                  | some (fs, r4) => some (.obj (.cons k v fs), r4)
              else none
        else none
    else if c.isDigit then (parseNatTok (c :: rest)).map (fun p => (.num p.1, p.2))
    else none
/-- Parse the tail of an array: `]` or `,` followed by a value. -/
def parseArrTail : Nat → List Char → Option (JsonList × List Char)
  | 0, _ => none
  | _ + 1, [] => none
  | fuel + 1, c :: rest =>
    if c = ']' then some (.nil, rest)
    else if c = ',' then
      match parseVal fuel rest with
      | none => none
      | some (v, r1) =>
        match parseArrTail fuel r1 with
        | none => none
        | some (vs, r2) => some (.cons v vs, r2)
    else none
/-- Parse the tail of an object. -/
def parseObjTail : Nat → List Char → Option (JsonObj × List Char)
  | 0, _ => none
  | _ + 1, [] => none
  | fuel + 1, c :: rest =>
    if c = '\x7d' then some (.nil, rest)
    else if c = ',' then
      match rest with
      | [] => none
      | d :: r' =>
        if d = '"' then
          match parseStrBody r' with
          | none => none
          | some (k, r1) =>
            match r1 with
            | [] => none
            | e :: r2 =>
              if e = ':' then
                match parseVal fuel r2 with
                | none => none
                | some (v, r3) =>
                  match parseObjTail fuel r3 with
                  | none => none
                  | some (fs, r4) => some (.cons k v fs, r4)
              else none
        else none
    else none
end

/-- `JSON.parse` model: a parse succeeds only if it consumes the whole
input. -/
def parseJson (s : String) : Option Json :=
  match parseVal (s.data.length + 1) s.data with
  | some (v, []) => some v
  | _ => none

/-! ## Round-trip: the parser inverts the serializer -/

/-- `true` when the input does not begin with a decimal digit (so a
number token before it cannot absorb it). -/
def headNotDigit : List Char → Bool
  | [] => true
  | c :: _ => !c.isDigit

mutual
/-- Fuel lower bound for parsing a serialized value. -/
def szJ : Json → Nat
  | .null => 0
  | .bool _ => 0
  | .num _ => 0
  | .str _ => 0
  | .arr xs => 1 + szL xs
  | .obj fs => 1 + szO fs
/-- Fuel lower bound for parsing a serialized array tail. -/
def szL : JsonList → Nat
  | .nil => 0
  | .cons v vs => 1 + szJ v + szL vs
/-- Fuel lower bound for parsing a serialized object tail. -/
def szO : JsonObj → Nat
  | .nil => 0
  | .cons _ v fs => 1 + szJ v + szO fs
end

theorem digitCh_isDigit : ∀ d, d < 10 → (digitCh d).isDigit = true := by decide

theorem digitCh_val : ∀ d, d < 10 → (digitCh d).toNat - 48 = d := by decide

theorem natDigitsAux_digits : ∀ fuel n, n < fuel → ∀ c ∈ natDigitsAux fuel n, c.isDigit = true := by
  intro fuel
  induction fuel with
  | zero => intro n h; omega
  | succ f ih =>
    intro n h c hc
    by_cases h10 : n < 10
    · simp [natDigitsAux, h10] at hc
      subst hc
      exact digitCh_isDigit n h10
    · simp [natDigitsAux, h10] at hc
      rcases hc with hc | hc
      · exact ih (n / 10) (by omega) c hc
      · subst hc
        exact digitCh_isDigit (n % 10) (by omega)

theorem natDigitsAux_ne_nil : ∀ fuel n, n < fuel → natDigitsAux fuel n ≠ [] := by
  intro fuel
  induction fuel with
  | zero => intro n h; omega
  | succ f _ =>
    intro n _
    by_cases h10 : n < 10 <;> simp [natDigitsAux, h10]

theorem digitsVal_append_one (ds : List Char) (c : Char) :
    digitsVal (ds ++ [c]) = 10 * digitsVal ds + (c.toNat - 48) := by
  simp [digitsVal, List.foldl_append]

theorem natDigitsAux_val : ∀ fuel n, n < fuel → digitsVal (natDigitsAux fuel n) = n := by
  intro fuel
  induction fuel with
  | zero => intro n h; omega
  | succ f ih =>
    intro n h
    by_cases h10 : n < 10
    · simp [natDigitsAux, h10, digitsVal]
      have := digitCh_val n h10
      omega
    · rw [natDigitsAux]
      simp only [h10, if_false, digitsVal_append_one]
      rw [ih (n / 10) (by omega)]
      have := digitCh_val (n % 10) (by omega)
      omega

theorem takeWhile_all_append (p : Char → Bool) (ds rest : List Char)
    (h : ∀ c ∈ ds, p c = true) (h2 : ∀ c, rest.head? = some c → p c = false) :
    (ds ++ rest).takeWhile p = ds ∧ (ds ++ rest).dropWhile p = rest := by
  induction ds with
  | nil =>
    simp only [List.nil_append]
    cases rest with
    | nil => simp
    | cons c cs =>
      have := h2 c rfl
      constructor
      · simp [List.takeWhile, this]
      · simp [List.dropWhile, this]
  | cons d ds ih =>
    have hd : p d = true := h d (by simp)
    have ihr := ih (fun c hc => h c (by simp [hc]))
    constructor
    · simp [List.takeWhile, hd, ihr.1]
    · simp [List.dropWhile, hd, ihr.2]

theorem parseNatTok_natDigits (n : Nat) (rest : List Char) (h : headNotDigit rest = true) :
    parseNatTok (natDigits n ++ rest) = some (n, rest) := by
  have hall : ∀ c ∈ natDigits n, c.isDigit = true := natDigitsAux_digits (n + 1) n (by omega)
  have hne : natDigits n ≠ [] := natDigitsAux_ne_nil (n + 1) n (by omega)
  have hval : digitsVal (natDigits n) = n := natDigitsAux_val (n + 1) n (by omega)
  have hhead : ∀ c, rest.head? = some c → c.isDigit = false := by
    intro c hc
    cases rest with
    | nil => simp at hc
    | cons r rs =>
      simp at hc
      subst hc
      simp [headNotDigit] at h
      exact h
  have hsplit := takeWhile_all_append Char.isDigit (natDigits n) rest hall hhead
  rw [parseNatTok]
  simp only [hsplit.1, hsplit.2, List.isEmpty_iff]
  rw [if_neg hne, hval]

theorem parseStrBody_bs (e : Char) (rest2 : List Char) :
    parseStrBody ('\\' :: e :: rest2)
      = match unescCh e with
        | some u => (parseStrBody rest2).map (fun p => (u :: p.1, p.2))
        | none => none := rfl

theorem parseStrBody_esc (s : List Char) (rest : List Char) :
    parseStrBody (escChars s ++ '"' :: rest) = some (s, rest) := by
  induction s with
  | nil => simp [escChars, parseStrBody]
  | cons c cs ih =>
    by_cases hc : c = '"' ∨ c = '\\'
    · have hesc : escCh c = ['\\', c] := by simp [escCh, hc]
      have hun : unescCh c = some c := by
        rcases hc with h | h <;> subst h <;> decide
      simp only [escChars, hesc, List.cons_append, List.nil_append]
      rw [parseStrBody_bs, hun, ih]
      rfl
    · push_neg at hc
      by_cases hn : c = '\n'
      · subst hn
        have hesc : escChars ('\n' :: cs) = '\\' :: 'n' :: escChars cs := rfl
        rw [hesc, List.cons_append, List.cons_append, parseStrBody_bs, show unescCh 'n' = some '\n' from rfl, ih]
        rfl
      · by_cases ht : c = '\t'
        · subst ht
          have hesc : escChars ('\t' :: cs) = '\\' :: 't' :: escChars cs := rfl
          rw [hesc, List.cons_append, List.cons_append, parseStrBody_bs, show unescCh 't' = some '\t' from rfl, ih]
          rfl
        · by_cases hr : c = '\r'
          · subst hr
            have hesc : escChars ('\r' :: cs) = '\\' :: 'r' :: escChars cs := rfl
            rw [hesc, List.cons_append, List.cons_append, parseStrBody_bs, show unescCh 'r' = some '\r' from rfl, ih]
            rfl
          · have hesc : escCh c = [c] := by
              simp [escCh, hc.1, hc.2, hn, ht, hr]
            simp only [escChars, hesc, List.cons_append, List.nil_append]
            rw [parseStrBody]
            rw [if_neg hc.1, if_neg hc.2, ih]
            rfl

theorem isDigit_ne_special (c : Char) (h : c.isDigit = true) :
    c ≠ 'n' ∧ c ≠ 't' ∧ c ≠ 'f' ∧ c ≠ '"' ∧ c ≠ '[' ∧ c ≠ '\x7b' := by
  refine ⟨?_, ?_, ?_, ?_, ?_, ?_⟩ <;> intro he <;> subst he <;> exact absurd h (by decide)

theorem serJ_head_ne_rb (v : Json) : ∃ c cs, serJ v = c :: cs ∧ c ≠ ']' := by
  cases v with
  | null => exact ⟨'n', _, rfl, by decide⟩
  | bool b => cases b <;> exact ⟨_, _, rfl, by decide⟩
  | num n =>
    cases hl : natDigits n with
    | nil => exact absurd hl (natDigitsAux_ne_nil (n + 1) n (by omega))
    | cons c cs =>
      have hmem : c ∈ natDigits n := by rw [hl]; simp
      have hdig := natDigitsAux_digits (n + 1) n (by omega) c hmem
      refine ⟨c, cs, ?_, ?_⟩
      · simpa [serJ] using hl
      · intro he; subst he; exact absurd hdig (by decide)
  | str s => exact ⟨'"', _, rfl, by decide⟩
  | arr xs => cases xs <;> exact ⟨_, _, rfl, by decide⟩
  | obj fs => cases fs <;> exact ⟨_, _, rfl, by decide⟩

theorem hnd_serLT (vs : JsonList) (rest : List Char) :
    headNotDigit (serLT vs ++ ']' :: rest) = true := by
  cases vs <;> simp [serLT, headNotDigit]

theorem hnd_serOT (fs : JsonObj) (rest : List Char) :
    headNotDigit (serOT fs ++ '\x7d' :: rest) = true := by
  cases fs <;> simp [serOT, headNotDigit]

/-! Step equations of `parseVal` at each concrete leading character;
all are definitional. -/

theorem parseVal_n (f : Nat) (rest : List Char) :
    parseVal (f + 1) ('n' :: rest)
      = (stripPre ['u', 'l', 'l'] rest).map (fun r => (Json.null, r)) := rfl

theorem parseVal_t (f : Nat) (rest : List Char) :
    parseVal (f + 1) ('t' :: rest)
      = (stripPre ['r', 'u', 'e'] rest).map (fun r => (Json.bool true, r)) := rfl

theorem parseVal_f (f : Nat) (rest : List Char) :
    parseVal (f + 1) ('f' :: rest)
      = (stripPre ['a', 'l', 's', 'e'] rest).map (fun r => (Json.bool false, r)) := rfl

theorem parseVal_q (f : Nat) (rest : List Char) :
    parseVal (f + 1) ('"' :: rest)
      = (parseStrBody rest).map (fun p => (Json.str p.1, p.2)) := rfl

theorem parseVal_lbrack (f : Nat) (d : Char) (r' : List Char) :
    parseVal (f + 1) ('[' :: d :: r')
      = if d = ']' then some (.arr .nil, r')
        else
          match parseVal f (d :: r') with
          | none => none
          | some (v, r1) =>
            match parseArrTail f r1 with
            | none => none
            | some (vs, r2) => some (.arr (.cons v vs), r2) := rfl

theorem parseVal_lbrace (f : Nat) (d : Char) (r' : List Char) :
    parseVal (f + 1) ('\x7b' :: d :: r')
      = if d = '\x7d' then some (.obj .nil, r')
        else if d = '"' then
          match parseStrBody r' with
          | none => none
          | some (k, r1) =>
            match r1 with
            | [] => none
            | e :: r2 =>
              if e = ':' then
                match parseVal f r2 with
                | none => none
                | some (v, r3) =>
                  match parseObjTail f r3 with
                  | none => none
                  | some (fs, r4) => some (.obj (.cons k v fs), r4)
              else none
        else none := rfl

theorem parseArrTail_step (f : Nat) (c : Char) (rest : List Char) :
    parseArrTail (f + 1) (c :: rest)
      = if c = ']' then some (.nil, rest)
        else if c = ',' then
          match parseVal f rest with
          | none => none
          | some (v, r1) =>
            match parseArrTail f r1 with
            | none => none
            | some (vs, r2) => some (.cons v vs, r2)
        else none := rfl

theorem parseObjTail_step (f : Nat) (c : Char) (rest : List Char) :
    parseObjTail (f + 1) (c :: rest)
      = if c = '\x7d' then some (.nil, rest)
        else if c = ',' then
          match rest with
          | [] => none
          | d :: r' =>
            if d = '"' then
              match parseStrBody r' with
              | none => none
              | some (k, r1) =>
                match r1 with
                | [] => none
                | e :: r2 =>
                  if e = ':' then
                    match parseVal f r2 with
                    | none => none
                    | some (v, r3) =>
                      match parseObjTail f r3 with
                      | none => none
                      | some (fs, r4) => some (.cons k v fs, r4)
                  else none
            else none
        else none := rfl

theorem parseVal_dig (f : Nat) (c : Char) (rest : List Char) (h : c.isDigit = true) :
    parseVal (f + 1) (c :: rest)
      = (parseNatTok (c :: rest)).map (fun p => (Json.num p.1, p.2)) := by
  have hne := isDigit_ne_special c h
  rw [parseVal.eq_def]
  simp [hne.1, hne.2.1, hne.2.2.1, hne.2.2.2.1, hne.2.2.2.2.1, hne.2.2.2.2.2, h]

mutual
/-- The parser inverts the serializer on any value (with any non-digit
continuation and enough fuel). -/
theorem parse_serJ (v : Json) : ∀ (fuel : Nat) (rest : List Char),
    szJ v < fuel → headNotDigit rest = true →
    parseVal fuel (serJ v ++ rest) = some (v, rest) := by
  intro fuel rest hfuel hrest
  cases fuel with
  | zero => omega
  | succ f =>
    cases v with
    | null =>
      have h0 : serJ Json.null ++ rest = 'n' :: 'u' :: 'l' :: 'l' :: rest := rfl
      rw [h0, parseVal_n]
      simp [stripPre]
    | bool b =>
      cases b with
      | true =>
        have h0 : serJ (Json.bool true) ++ rest = 't' :: 'r' :: 'u' :: 'e' :: rest := rfl
        rw [h0, parseVal_t]
        simp [stripPre]
      | false =>
        have h0 : serJ (Json.bool false) ++ rest = 'f' :: 'a' :: 'l' :: 's' :: 'e' :: rest := rfl
        rw [h0, parseVal_f]
        simp [stripPre]
    | num n =>
      cases hl : natDigits n with
      | nil => exact absurd hl (natDigitsAux_ne_nil (n + 1) n (by omega))
      | cons c cs =>
        have hmem : c ∈ natDigits n := by rw [hl]; simp
        have hdig := natDigitsAux_digits (n + 1) n (by omega) c hmem
        have h0 : serJ (Json.num n) ++ rest = c :: (cs ++ rest) := by simp [serJ, hl]
        rw [h0, parseVal_dig f c (cs ++ rest) hdig]
        have h1 : c :: (cs ++ rest) = natDigits n ++ rest := by rw [hl]; simp
        rw [h1, parseNatTok_natDigits n rest hrest]
        rfl
    | str s =>
      have h0 : serJ (Json.str s) ++ rest = '"' :: (escChars s ++ '"' :: rest) := by
        simp [serJ]
      rw [h0, parseVal_q, parseStrBody_esc]
      rfl
    | arr xs =>
      cases xs with
      | nil =>
        have h0 : serJ (Json.arr .nil) ++ rest = '[' :: ']' :: rest := by simp [serJ]
        rw [h0, parseVal_lbrack]
        simp
      | cons v vs =>
        have hsz : szJ (Json.arr (.cons v vs)) = 2 + szJ v + szL vs := by
          simp [szJ, szL]
          omega
        obtain ⟨c1, cs1, hser, hne1⟩ := serJ_head_ne_rb v
        have h0 : serJ (Json.arr (.cons v vs)) ++ rest
            = '[' :: c1 :: (cs1 ++ (serLT vs ++ ']' :: rest)) := by
          have : serJ (Json.arr (.cons v vs)) = '[' :: serJ v ++ serLT vs ++ [']'] := rfl
          rw [this, hser]
          simp
        rw [h0, parseVal_lbrack, if_neg hne1]
        have hback : c1 :: (cs1 ++ (serLT vs ++ ']' :: rest))
            = serJ v ++ (serLT vs ++ ']' :: rest) := by rw [hser]; simp
        rw [hback]
        rw [parse_serJ v f (serLT vs ++ ']' :: rest) (by omega) (hnd_serLT vs rest)]
        dsimp only
        rw [parse_serL vs f rest (by omega)]
    | obj fs =>
      cases fs with
      | nil =>
        have h0 : serJ (Json.obj .nil) ++ rest = '\x7b' :: '\x7d' :: rest := by simp [serJ]
        rw [h0, parseVal_lbrace]
        simp
      | cons k v fs =>
        have hsz : szJ (Json.obj (.cons k v fs)) = 2 + szJ v + szO fs := by
          simp [szJ, szO]
          omega
        have h0 : serJ (Json.obj (.cons k v fs)) ++ rest
            = '\x7b' :: '"' :: (escChars k ++ '"' :: (':' :: (serJ v ++ (serOT fs ++ '\x7d' :: rest)))) := by
          have : serJ (Json.obj (.cons k v fs))
              = '\x7b' :: (('"' :: escChars k ++ ['"', ':']) ++ serJ v) ++ serOT fs ++ ['\x7d'] := rfl
          rw [this]
          simp
        rw [h0, parseVal_lbrace]
        rw [if_neg (by decide : ¬ ('"' : Char) = '\x7d'), if_pos (rfl : ('"' : Char) = '"')]
        rw [parseStrBody_esc]
        dsimp only
        rw [if_pos (rfl : (':' : Char) = ':')]
        rw [parse_serJ v f (serOT fs ++ '\x7d' :: rest) (by omega) (hnd_serOT fs rest)]
        dsimp only
        rw [parse_serO fs f rest (by omega)]
/-- The array-tail parser inverts the array-tail serializer. -/
theorem parse_serL (vs : JsonList) : ∀ (fuel : Nat) (rest : List Char),
    szL vs < fuel →
    parseArrTail fuel (serLT vs ++ ']' :: rest) = some (vs, rest) := by
  intro fuel rest hfuel
  cases fuel with
  | zero => omega
  | succ f =>
    cases vs with
    | nil =>
      have h0 : serLT .nil ++ ']' :: rest = ']' :: rest := by simp [serLT]
      rw [h0, parseArrTail_step]
      simp
    | cons v vs =>
      have hsz : szL (JsonList.cons v vs) = 1 + szJ v + szL vs := by simp [szL]
      have h0 : serLT (.cons v vs) ++ ']' :: rest
          = ',' :: (serJ v ++ (serLT vs ++ ']' :: rest)) := by simp [serLT]
      rw [h0, parseArrTail_step]
      rw [if_neg (by decide : ¬ (',' : Char) = ']'), if_pos (rfl : (',' : Char) = ',')]
      rw [parse_serJ v f (serLT vs ++ ']' :: rest) (by omega) (hnd_serLT vs rest)]
      dsimp only
      rw [parse_serL vs f rest (by omega)]
/-- The object-tail parser inverts the object-tail serializer. -/
theorem parse_serO (fs : JsonObj) : ∀ (fuel : Nat) (rest : List Char),
    szO fs < fuel →
    parseObjTail fuel (serOT fs ++ '\x7d' :: rest) = some (fs, rest) := by
  intro fuel rest hfuel
  cases fuel with
  | zero => omega
  | succ f =>
    cases fs with
    | nil =>
      have h0 : serOT .nil ++ '\x7d' :: rest = '\x7d' :: rest := by simp [serOT]
      rw [h0, parseObjTail_step]
      simp
    | cons k v fs =>
      have hsz : szO (JsonObj.cons k v fs) = 1 + szJ v + szO fs := by simp [szO]
      have h0 : serOT (.cons k v fs) ++ '\x7d' :: rest
          = ',' :: ('"' :: (escChars k ++ '"' :: (':' :: (serJ v ++ (serOT fs ++ '\x7d' :: rest))))) := by
        simp [serOT]
      rw [h0, parseObjTail_step]
      rw [if_neg (by decide : ¬ (',' : Char) = '\x7d'), if_pos (rfl : (',' : Char) = ',')]
      dsimp only
      rw [if_pos (rfl : ('"' : Char) = '"')]
      rw [parseStrBody_esc]
      dsimp only
      rw [if_pos (rfl : (':' : Char) = ':')]
      rw [parse_serJ v f (serOT fs ++ '\x7d' :: rest) (by omega) (hnd_serOT fs rest)]
      dsimp only
      rw [parse_serO fs f rest (by omega)]
end

mutual
/-- The fuel bound is dominated by the serialized length. -/
theorem szJ_le_len (v : Json) : szJ v ≤ (serJ v).length := by
  cases v with
  | null => decide
  | bool b => cases b <;> decide
  | num n => simp [szJ]
  | str s => simp [szJ]
  | arr xs =>
    cases xs with
    | nil => simp [szJ, szL, serJ]
    | cons v vs =>
      have h1 := szJ_le_len v
      have h2 := szL_le_len vs
      simp only [szJ, szL, serJ, List.length_cons, List.length_append]
      omega
  | obj fs =>
    cases fs with
    | nil => simp [szJ, szO, serJ]
    | cons k v fs =>
      have h1 := szJ_le_len v
      have h2 := szO_le_len fs
      simp only [szJ, szO, serJ, List.length_cons, List.length_append]
      omega
/-- Array-tail analogue of `szJ_le_len`. -/
theorem szL_le_len (vs : JsonList) : szL vs ≤ (serLT vs).length := by
  cases vs with
  | nil => simp [szL, serLT]
  | cons v vs =>
    have h1 := szJ_le_len v
    have h2 := szL_le_len vs
    simp only [szL, serLT, List.length_cons, List.length_append]
    omega
/-- Object-tail analogue of `szJ_le_len`. -/
theorem szO_le_len (fs : JsonObj) : szO fs ≤ (serOT fs).length := by
  cases fs with
  | nil => simp [szO, serOT]
  | cons k v fs =>
    have h1 := szJ_le_len v
    have h2 := szO_le_len fs
    simp only [szO, serOT, List.length_cons, List.length_append]
    omega
end

/-- Round trip: parsing serializer output returns the original value. -/
theorem parseJson_serializeJson (v : Json) : parseJson (serializeJson v) = some v := by
  rw [parseJson]
  have hdata : (serializeJson v).data = serJ v := rfl
  rw [hdata]
  have h := parse_serJ v ((serJ v).length + 1) [] (by have := szJ_le_len v; omega) rfl
  rw [show serJ v ++ ([] : List Char) = serJ v from by simp] at h
  rw [h]

/-! ## The test client `McpClient` (packages/mcp/src/server.test.ts)

`readOutput` appends `decoder.decode(chunk)` to a string buffer for each
arriving chunk and calls `processBuffer`, which splits the buffer on
`"\n"`, keeps the final (possibly empty) piece as the new buffer and
processes every complete line: blank lines are skipped, lines that
`JSON.parse` rejects are skipped, and a parsed object with
`jsonrpc === "2.0"` and an `id` field settles the matching entry of
`pendingRequests`, deleting it before resolving.  The 5-second timeout
in `sendRequest` deletes the entry and rejects.
-/

/-- Concatenation of a list of chunks. -/
def concatAll {α : Type} : List (List α) → List α
  | [] => []
  | x :: xs => x ++ concatAll xs

/-- Split a character buffer on `'\n'` exactly as
`lines = buffer.split("\n"); buffer = lines.pop() || ""` does: the first
component is the complete lines (in order), the second the trailing
partial line kept in the buffer. -/
def splitCh : List Char → List (List Char) × List Char
  | [] => ([], [])
  | c :: cs =>
    let r := splitCh cs
    if c = '\n' then ([] :: r.1, r.2)
    else
      match r.1 with
      | [] => ([], c :: r.2)
      | l :: ls => ((c :: l) :: ls, r.2)

/-- Feed character chunks through the client's buffer one at a time,
collecting every complete line emitted and the final buffer content. -/
def feedAll : List Char → List (List Char) → List (List Char) × List Char
  | buf, [] => ([], buf)
  | buf, ch :: chs =>
    let r := splitCh (buf ++ ch)
    let rest := feedAll r.2 chs
    (r.1 ++ rest.1, rest.2)

/-- UTF-8 encoding of one character (the bytes the server's stdout
carries for it). -/
def utf8Bytes (c : Char) : List Nat :=
  let n := c.toNat
  if n < 0x80 then [n]
  else if n < 0x800 then [0xC0 + n / 64, 0x80 + n % 64]
  else if n < 0x10000 then
    [0xE0 + n / 4096, 0x80 + (n / 64) % 64, 0x80 + n % 64]
  else
    [0xF0 + n / 262144, 0x80 + (n / 4096) % 64, 0x80 + (n / 64) % 64, 0x80 + n % 64]

/-- UTF-8 encoding of a character sequence. -/
def utf8EncodeAll : List Char → List Nat
  | [] => []
  | c :: cs => utf8Bytes c ++ utf8EncodeAll cs

/-- U+FFFD, the replacement character. -/
def repl : Char := Char.ofNat 0xFFFD

/-- A UTF-8 continuation byte. -/
def contOk (b : Nat) : Bool := 0x80 ≤ b && b ≤ 0xBF

/-- WHATWG second-byte lower bound for a three-byte lead. -/
def lo3 (b0 : Nat) : Nat := if b0 = 0xE0 then 0xA0 else 0x80

/-- WHATWG second-byte upper bound for a three-byte lead. -/
def hi3 (b0 : Nat) : Nat := if b0 = 0xED then 0x9F else 0xBF

/-- WHATWG second-byte lower bound for a four-byte lead. -/
def lo4 (b0 : Nat) : Nat := if b0 = 0xF0 then 0x90 else 0x80

/-- WHATWG second-byte upper bound for a four-byte lead. -/
def hi4 (b0 : Nat) : Nat := if b0 = 0xF4 then 0x8F else 0xBF

/-- `TextDecoder().decode` (WHATWG UTF-8 decode, `fatal: false`) of one
complete chunk: invalid or truncated sequences become U+FFFD, and a
truncated sequence at the end of the chunk is flushed as U+FFFD because
the decode is not streaming (`McpClient.readOutput` passes no
`stream: true`). -/
def decodeUtf8 : List Nat → List Char
  | [] => []
  | b0 :: rest =>
    if b0 < 0x80 then Char.ofNat b0 :: decodeUtf8 rest
    else if b0 < 0xC2 then repl :: decodeUtf8 rest
    else if b0 ≤ 0xDF then
      match rest with
      | [] => [repl]
      | b1 :: r1 =>
        if contOk b1 then Char.ofNat ((b0 - 0xC0) * 64 + (b1 - 0x80)) :: decodeUtf8 r1
        else repl :: decodeUtf8 (b1 :: r1)
    else if b0 ≤ 0xEF then
      match rest with
      | [] => [repl]
      | b1 :: r1 =>
        if lo3 b0 ≤ b1 ∧ b1 ≤ hi3 b0 then
          match r1 with
          | [] => [repl]
          | b2 :: r2 =>
            if contOk b2 then
              Char.ofNat ((b0 - 0xE0) * 4096 + (b1 - 0x80) * 64 + (b2 - 0x80)) :: decodeUtf8 r2
            else repl :: decodeUtf8 (b2 :: r2)
        else repl :: decodeUtf8 (b1 :: r1)
    else if b0 ≤ 0xF4 then
      match rest with
      | [] => [repl]
      | b1 :: r1 =>
        if lo4 b0 ≤ b1 ∧ b1 ≤ hi4 b0 then
          match r1 with
          | [] => [repl]
          | b2 :: r2 =>
            if contOk b2 then
              match r2 with
              | [] => [repl]
              | b3 :: r3 =>
                if contOk b3 then
                  Char.ofNat ((b0 - 0xF0) * 262144 + (b1 - 0x80) * 4096
                    + (b2 - 0x80) * 64 + (b3 - 0x80)) :: decodeUtf8 r3
                else repl :: decodeUtf8 (b3 :: r3)
            else repl :: decodeUtf8 (b2 :: r2)
        else repl :: decodeUtf8 (b1 :: r1)
    else repl :: decodeUtf8 rest

/-- The client's decode-and-split pipeline on raw stdout byte chunks:
each chunk is decoded on its own (exactly `decoder.decode(chunk)` with
no `stream` option) and appended to the line buffer. -/
def clientFeedBytes (chunks : List (List Nat)) : List (List Char) × List Char :=
  feedAll [] (chunks.map decodeUtf8)

/-- JS `String.prototype.trim` on a character list. -/
def trimL (cs : List Char) : List Char :=
  ((cs.dropWhile Char.isWhitespace).reverse.dropWhile Char.isWhitespace).reverse

/-- State of the test client: the keys of `pendingRequests` plus the
log of settled request ids (resolutions and rejections, in order). -/
structure ClientState where
  pending : List Nat
  resolvedIds : List Nat
  rejectedIds : List Nat
deriving DecidableEq, Repr

/-- Response handling inside `processBuffer`: a matching pending entry
is deleted from the table and then resolved; an unmatched id is
ignored. -/
def respond (st : ClientState) (n : Nat) : ClientState :=
  if st.pending.contains n then
    { pending := st.pending.erase n
      resolvedIds := st.resolvedIds ++ [n]
      rejectedIds := st.rejectedIds }
  else st

/-- The 5-second timeout path of `sendRequest`: delete the entry, then
reject. -/
def fireTimeout (st : ClientState) (n : Nat) : ClientState :=
  { pending := st.pending.erase n
    resolvedIds := st.resolvedIds
    rejectedIds := st.rejectedIds ++ [n] }

/-- Processing of one complete line by `processBuffer`'s loop: blank
lines are skipped, non-JSON lines are skipped (`JSON.parse` throws are
swallowed), envelopes without `jsonrpc === "2.0"` or without an `id`
are skipped, and a numeric `id` settles the matching pending entry. -/
def handleLine (st : ClientState) (line : String) : ClientState :=
  if (trimL line.data).isEmpty then st
  else
    match parseJson line with
    | none => st
    | some v =>
      if objGet v "jsonrpc".data = some (Json.str "2.0".data) ∧ (objGet v "id".data).isSome then
        match objGet v "id".data with
        | some (.num n) => respond st n
        | _ => st
      else st

/-- The loop of `processBuffer` over a list of complete lines. -/
def processLines (st : ClientState) (lines : List String) : ClientState :=
  lines.foldl handleLine st

/-! ### Chunk-division invariance of the line splitter (character level) -/

theorem splitCh_cons_nl (cs : List Char) :
    splitCh ('\n' :: cs) = ([] :: (splitCh cs).1, (splitCh cs).2) := rfl

theorem splitCh_cons (c : Char) (cs : List Char) (h : ¬ c = '\n') :
    splitCh (c :: cs)
      = match (splitCh cs).1 with
        | [] => ([], c :: (splitCh cs).2)
        | l :: ls => ((c :: l) :: ls, (splitCh cs).2) := by
  rw [splitCh]
  simp only [if_neg h]

theorem splitCh_append (a b : List Char) :
    splitCh (a ++ b)
      = ((splitCh a).1 ++ (splitCh ((splitCh a).2 ++ b)).1,
         (splitCh ((splitCh a).2 ++ b)).2) := by
  induction a with
  | nil => simp [splitCh]
  | cons c a ih =>
    rw [List.cons_append]
    by_cases hc : c = '\n'
    · subst hc
      rw [splitCh_cons_nl, splitCh_cons_nl, ih]
      simp
    · rw [splitCh_cons c (a ++ b) hc, ih, splitCh_cons c a hc]
      cases h1 : (splitCh a).1 with
      | nil =>
        simp only [h1, List.nil_append, List.cons_append]
        rw [splitCh_cons c ((splitCh a).2 ++ b) hc]
      | cons l ls =>
        simp only [h1, List.cons_append]

/-- A buffer with no newline splits to itself. -/
theorem splitCh_no_newline (buf : List Char) (h : buf.all (fun c => c ≠ '\n') = true) :
    splitCh buf = ([], buf) := by
  induction buf with
  | nil => simp [splitCh]
  | cons c cs ih =>
    simp only [List.all_cons, Bool.and_eq_true, decide_eq_true_eq] at h
    rw [splitCh, ih (by simpa using h.2)]
    simp [h.1]

/-- The buffer left by a split contains no newline. -/
theorem splitCh_snd_no_newline (cs : List Char) :
    (splitCh cs).2.all (fun c => c ≠ '\n') = true := by
  induction cs with
  | nil => simp [splitCh]
  | cons c cs ih =>
    by_cases hc : c = '\n'
    · subst hc
      rw [splitCh_cons_nl]
      exact ih
    · rw [splitCh_cons c cs hc]
      cases h1 : (splitCh cs).1 with
      | nil =>
        simp only [List.all_cons, Bool.and_eq_true, decide_eq_true_eq]
        exact ⟨hc, ih⟩
      | cons l ls => exact ih

/-- Feeding chunks one at a time through the client buffer yields the
very lines (and final buffer) of splitting the whole concatenation: the
output is independent of the chunk division. -/
theorem feedAll_eq_splitCh (chunks : List (List Char)) :
    ∀ buf, buf.all (fun c => c ≠ '\n') = true →
    feedAll buf chunks = splitCh (buf ++ concatAll chunks) := by
  induction chunks with
  | nil =>
    intro buf h
    rw [feedAll, concatAll, List.append_nil, splitCh_no_newline buf h]
  | cons ch chs ih =>
    intro buf h
    rw [feedAll, concatAll]
    have hassoc : buf ++ (ch ++ concatAll chs) = (buf ++ ch) ++ concatAll chs := by simp
    rw [hassoc, splitCh_append (buf ++ ch) (concatAll chs)]
    rw [ih (splitCh (buf ++ ch)).2 (splitCh_snd_no_newline (buf ++ ch))]

/-! ### Byte-level behaviour of the per-chunk decoder -/

/-- Decoding the UTF-8 bytes of one character (followed by anything)
yields that character: the WHATWG branch conditions accept exactly the
encoder's output, and no byte of a following character is consumed. -/
theorem decodeUtf8_encodeOne (c : Char) (rest : List Nat) :
    decodeUtf8 (utf8Bytes c ++ rest) = c :: decodeUtf8 rest := by
  have hv : c.toNat < 0xd800 ∨ (0xdfff < c.toNat ∧ c.toNat < 0x110000) := c.valid
  by_cases h1 : c.toNat < 0x80
  · have hb : utf8Bytes c = [c.toNat] := by simp [utf8Bytes, h1]
    rw [hb, List.cons_append, List.nil_append, decodeUtf8.eq_def]
    simp only []
    rw [if_pos h1, Char.ofNat_toNat]
  · by_cases h2 : c.toNat < 0x800
    · have hb : utf8Bytes c = [0xC0 + c.toNat / 64, 0x80 + c.toNat % 64] := by
        simp [utf8Bytes, h1, h2]
      rw [hb]
      simp only [List.cons_append, List.nil_append]
      rw [decodeUtf8.eq_def]
      simp only []
      rw [if_neg (by omega), if_neg (by omega), if_pos (by omega)]
      have hcont : contOk (0x80 + c.toNat % 64) = true := by
        simp only [contOk, Bool.and_eq_true, decide_eq_true_eq]
        omega
      rw [if_pos hcont]
      have harg : (0xC0 + c.toNat / 64 - 0xC0) * 64 + (0x80 + c.toNat % 64 - 0x80)
          = c.toNat := by omega
      rw [harg, Char.ofNat_toNat]
    · by_cases h3 : c.toNat < 0x10000
      · have hb : utf8Bytes c
            = [0xE0 + c.toNat / 4096, 0x80 + (c.toNat / 64) % 64, 0x80 + c.toNat % 64] := by
          simp [utf8Bytes, h1, h2, h3]
        rw [hb]
        simp only [List.cons_append, List.nil_append]
        rw [decodeUtf8.eq_def]
        simp only []
        rw [if_neg (by omega), if_neg (by omega), if_neg (by omega), if_pos (by omega)]
        have hcond : lo3 (0xE0 + c.toNat / 4096) ≤ 0x80 + (c.toNat / 64) % 64
            ∧ 0x80 + (c.toNat / 64) % 64 ≤ hi3 (0xE0 + c.toNat / 4096) := by
          unfold lo3 hi3
          constructor <;> split_ifs <;> omega
        rw [if_pos hcond]
        have hcont : contOk (0x80 + c.toNat % 64) = true := by
          simp only [contOk, Bool.and_eq_true, decide_eq_true_eq]
          omega
        rw [if_pos hcont]
        have harg : (0xE0 + c.toNat / 4096 - 0xE0) * 4096
            + (0x80 + (c.toNat / 64) % 64 - 0x80) * 64 + (0x80 + c.toNat % 64 - 0x80)
            = c.toNat := by omega
        rw [harg, Char.ofNat_toNat]
      · have h4 : c.toNat < 0x110000 := by omega
        have hb : utf8Bytes c
            = [0xF0 + c.toNat / 262144, 0x80 + (c.toNat / 4096) % 64,
               0x80 + (c.toNat / 64) % 64, 0x80 + c.toNat % 64] := by
          simp [utf8Bytes, h1, h2, h3]
        rw [hb]
        simp only [List.cons_append, List.nil_append]
        rw [decodeUtf8]
        rw [if_neg (by omega), if_neg (by omega), if_neg (by omega), if_neg (by omega),
          if_pos (by omega)]
        have hcond : lo4 (0xF0 + c.toNat / 262144) ≤ 0x80 + (c.toNat / 4096) % 64
            ∧ 0x80 + (c.toNat / 4096) % 64 ≤ hi4 (0xF0 + c.toNat / 262144) := by
          unfold lo4 hi4
          constructor <;> split_ifs <;> omega
        rw [if_pos hcond]
        have hcont2 : contOk (0x80 + (c.toNat / 64) % 64) = true := by
          simp only [contOk, Bool.and_eq_true, decide_eq_true_eq]
          omega
        rw [if_pos hcont2]
        have hcont3 : contOk (0x80 + c.toNat % 64) = true := by
          simp only [contOk, Bool.and_eq_true, decide_eq_true_eq]
          omega
        rw [if_pos hcont3]
        have harg : (0xF0 + c.toNat / 262144 - 0xF0) * 262144
            + (0x80 + (c.toNat / 4096) % 64 - 0x80) * 4096
            + (0x80 + (c.toNat / 64) % 64 - 0x80) * 64 + (0x80 + c.toNat % 64 - 0x80)
            = c.toNat := by omega
        rw [harg, Char.ofNat_toNat]

/-- Decoding an encoded character sequence recovers the sequence. -/
theorem decodeUtf8_utf8EncodeAll (cs : List Char) :
    decodeUtf8 (utf8EncodeAll cs) = cs := by
  induction cs with
  | nil => rfl
  | cons c cs ih =>
    rw [utf8EncodeAll, decodeUtf8_encodeOne, ih]

/-! ### Malformed lines and at-most-once settlement -/

/-- A line the loop must skip: `JSON.parse` rejects it, or the parsed
value lacks `jsonrpc === "2.0"` or an `id` field. -/
def malformedLine (line : String) : Bool :=
  match parseJson line with
  | none => true
  | some v =>
    !(decide (objGet v "jsonrpc".data = some (Json.str "2.0".data))
      && (objGet v "id".data).isSome)

theorem handleLine_malformed (st : ClientState) (line : String)
    (h : malformedLine line = true) : handleLine st line = st := by
  rw [handleLine]
  by_cases h1 : (trimL line.data).isEmpty
  · rw [if_pos h1]
  · rw [if_neg h1]
    cases hp : parseJson line with
    | none => rfl
    | some v =>
      rw [malformedLine, hp] at h
      simp only [Bool.not_eq_true', Bool.and_eq_false_iff, decide_eq_false_iff_not] at h
      have hcond : ¬ (objGet v "jsonrpc".data = some (Json.str "2.0".data)
          ∧ (objGet v "id".data).isSome) := by
        intro hc
        rcases h with h | h
        · exact h hc.1
        · rw [hc.2] at h
          exact Bool.noConfusion h
      dsimp only
      rw [if_neg hcond]

theorem handleLine_cases (st : ClientState) (line : String) :
    handleLine st line = st ∨ ∃ m, handleLine st line = respond st m := by
  rw [handleLine]
  by_cases h1 : (trimL line.data).isEmpty
  · rw [if_pos h1]
    exact Or.inl rfl
  · rw [if_neg h1]
    cases hp : parseJson line with
    | none => exact Or.inl rfl
    | some v =>
      dsimp only
      by_cases he : objGet v "jsonrpc".data = some (Json.str "2.0".data)
          ∧ (objGet v "id".data).isSome
      · rw [if_pos he]
        cases ho : objGet v "id".data with
        | none => exact Or.inl rfl
        | some j =>
          cases j with
          | num n => exact Or.inr ⟨n, rfl⟩
          | null => exact Or.inl rfl
          | bool b => exact Or.inl rfl
          | str s => exact Or.inl rfl
          | arr xs => exact Or.inl rfl
          | obj fs => exact Or.inl rfl
      · rw [if_neg he]
        exact Or.inl rfl

theorem respond_pending (st : ClientState) (n : Nat) (h : st.pending.contains n = true) :
    respond st n
      = { pending := st.pending.erase n
          resolvedIds := st.resolvedIds ++ [n]
          rejectedIds := st.rejectedIds } := by
  rw [respond, if_pos h]

theorem respond_not_pending (st : ClientState) (n : Nat) (h : st.pending.contains n = false) :
    respond st n = st := by
  rw [respond, if_neg (by simpa using h)]

theorem contains_false_iff (l : List Nat) (n : Nat) : l.contains n = false ↔ n ∉ l := by
  constructor
  · intro h
    simpa using h
  · intro h
    simpa using h

theorem processLines_cons (st : ClientState) (l : String) (ls : List String) :
    processLines st (l :: ls) = processLines (handleLine st l) ls := rfl

theorem processLines_no_pending : ∀ (lines : List String) (st : ClientState) (n : Nat),
    st.pending.contains n = false →
    (processLines st lines).resolvedIds.count n = st.resolvedIds.count n
    ∧ (processLines st lines).pending.contains n = false := by
  intro lines
  induction lines with
  | nil => intro st n h; exact ⟨rfl, h⟩
  | cons l ls ih =>
    intro st n h
    rw [processLines_cons]
    rcases handleLine_cases st l with hc | ⟨m, hc⟩
    · rw [hc]
      exact ih st n h
    · rw [hc]
      by_cases hm : st.pending.contains m = true
      · rw [respond_pending st m hm]
        have hne : n ≠ m := by
          intro he
          subst he
          rw [h] at hm
          exact Bool.noConfusion hm
        have hn' : (st.pending.erase m).contains n = false := by
          rw [contains_false_iff] at h ⊢
          intro hmem
          exact h (List.mem_of_mem_erase hmem)
        have hrec := ih ⟨st.pending.erase m, st.resolvedIds ++ [m], st.rejectedIds⟩ n hn'
        refine ⟨?_, hrec.2⟩
        rw [hrec.1]
        simp [List.count_append, List.count_cons, hne]
      · rw [respond_not_pending st m (by revert hm; cases st.pending.contains m <;> simp)]
        exact ih st n h

theorem processLines_count_le : ∀ (lines : List String) (st : ClientState) (n : Nat),
    st.pending.count n ≤ 1 →
    (processLines st lines).resolvedIds.count n ≤ st.resolvedIds.count n + 1 := by
  intro lines
  induction lines with
  | nil => intro st n _; exact Nat.le_succ _
  | cons l ls ih =>
    intro st n hcnt
    rw [processLines_cons]
    rcases handleLine_cases st l with hc | ⟨m, hc⟩
    · rw [hc]
      exact ih st n hcnt
    · rw [hc]
      by_cases hm : st.pending.contains m = true
      · rw [respond_pending st m hm]
        by_cases hmn : m = n
        · subst hmn
          have hmem : m ∈ st.pending := by simpa using hm
          have hpos : 0 < st.pending.count m := List.count_pos_iff.mpr hmem
          have hz : (st.pending.erase m).count m = 0 := by
            rw [List.count_erase_self]
            omega
          have hn' : (st.pending.erase m).contains m = false := by
            rw [contains_false_iff]
            exact (List.count_eq_zero).mp hz
          have hrec := processLines_no_pending ls
            ⟨st.pending.erase m, st.resolvedIds ++ [m], st.rejectedIds⟩ m hn'
          rw [hrec.1]
          simp [List.count_append]
        · have hne : n ≠ m := fun he => hmn he.symm
          have hcnt' : (st.pending.erase m).count n ≤ 1 := by
            rw [List.count_erase_of_ne hne]
            exact hcnt
          have hrec := ih ⟨st.pending.erase m, st.resolvedIds ++ [m], st.rejectedIds⟩ n hcnt'
          calc (processLines ⟨st.pending.erase m, st.resolvedIds ++ [m], st.rejectedIds⟩ ls).resolvedIds.count n
              ≤ (st.resolvedIds ++ [m]).count n + 1 := hrec
            _ = st.resolvedIds.count n + 1 := by
                simp [List.count_append, List.count_cons, hne]
      · rw [respond_not_pending st m (by revert hm; cases st.pending.contains m <;> simp)]
        exact ih st n hcnt

/-! ## Spec-modelled server core

The CLI/server implementation (`docs-manifest.ts`, the `renderDocList`
/ `renderDocs` exports of `cli.ts`, `open-issue-service.ts` and
`server.ts`) is not among the sources available here — only its tests
and the design spec are.  The definitions below are therefore modelled
from the spec (§3, §4.1–4.6), with output shapes pinned down by the
tests (`cli.test.ts`, `server.test.ts`).
-/

/-- Modelled from the spec: a Document of the store (§3): `slug`,
`title`, optional `description`, listing `order`, raw `body`. -/
structure Document where
  slug : String
  title : String
  description : Option String
  order : Int
  body : String
deriving DecidableEq, Repr

/-- Modelled from the spec: `get(slug)` of the Document Store (§4.1). -/
def getDoc (store : List Document) (slug : String) : Option Document :=
  store.find? (fun d => d.slug == slug)

/-- A two-document corpus used to instantiate the theorems (the real
manifest is `DOCS` of `docs-manifest.ts`; `server.test.ts` relies on an
`error-handling` document existing). -/
def sampleDocs : List Document :=
  [ ⟨"overview", "Overview", some "Start here", 1, "Welcome to Effect Solutions."⟩,
    ⟨"error-handling", "Error Handling", some "Typed errors", 2, "Use tagged errors and catchTag."⟩ ]

/-- Modelled from the spec: the per-document block of `renderDocs`
(§4.3): a heading line naming the title, followed by `(slug)`, then the
body. -/
def renderDoc (d : Document) : String :=
  "# " ++ d.title ++ "\n(" ++ d.slug ++ ")\n\n" ++ d.body

/-- The horizontal-rule separator between consecutive documents
(`cli.test.ts` checks the output contains `---`). -/
def docSep : String := "\n\n---\n\n"

/-- Modelled from the spec: resolve every requested slug left to right,
failing at the first one not in the store and naming it (the message
matches the `Unknown doc slug` pattern asserted by `cli.test.ts`). -/
def lookupDocs (store : List Document) : List String → Except String (List Document)
  | [] => .ok []
  | s :: rest =>
    match getDoc store s with
    | none => .error ("Unknown doc slug: " ++ s)
    | some d => (lookupDocs store rest).map (fun ds => d :: ds)

/-- Modelled from the spec: `renderDocs` (§4.3) — either the whole
rendering or an error, never partial output. -/
def renderDocs (store : List Document) (slugs : List String) : Except String String :=
  (lookupDocs store slugs).map (fun ds => String.intercalate docSep (ds.map renderDoc))

/-! ### Search (§4.2) -/

/-- Modelled from the spec: a query match (§3). -/
structure SearchResult where
  slug : String
  title : String
  score : Nat
deriving DecidableEq, Repr

/-- Lower-cased character list (case-insensitive matching). -/
def lcChars (s : List Char) : List Char := s.map Char.toLower

/-- Substring test on character lists. -/
def isSubL (needle hay : List Char) : Bool :=
  hay.tails.any (fun t => needle.isPrefixOf t)

/-- Modelled from the spec: the relevance signal — title matches rank
above description matches, which rank above body matches; 0 means no
match. -/
def docMatchScore (q : List Char) (d : Document) : Nat :=
  if isSubL q (lcChars d.title.data) then 3
  else if (match d.description with
           | some ds => isSubL q (lcChars ds.data)
           | none => false) then 2
  else if isSubL q (lcChars d.body.data) then 1
  else 0

/-- Ranking: score descending, ties by `order` then slug (§4.2). -/
def rankLeB (a b : Document × Nat) : Bool :=
  if a.2 ≠ b.2 then decide (b.2 ≤ a.2)
  else if a.1.order ≠ b.1.order then decide (a.1.order ≤ b.1.order)
  else decide (a.1.slug ≤ b.1.slug)

/-- Insert into a ranked list. -/
def insertRanked (x : Document × Nat) : List (Document × Nat) → List (Document × Nat)
  | [] => [x]
  | y :: ys => if rankLeB x y then x :: y :: ys else y :: insertRanked x ys

/-- Insertion sort by rank. -/
def sortRanked : List (Document × Nat) → List (Document × Nat)
  | [] => []
  | x :: xs => insertRanked x (sortRanked xs)

/-- Modelled from the spec: `search(query, limit)` (§4.2) — the query
is trimmed, an empty result is returned for an empty (or all-blank)
query, matching is case-insensitive substring over title, description
and body, results are ranked and capped at `limit`. -/
def search (store : List Document) (query : String) (limit : Nat) : List SearchResult :=
  let q := trimL query.data
  if q.isEmpty then []
  else
    let ql := lcChars q
    let scored := (store.map (fun d => (d, docMatchScore ql d))).filter (fun p => 0 < p.2)
    ((sortRanked scored).take limit).map (fun p => ⟨p.1.slug, p.1.title, p.2⟩)

/-! ### Issue filing (§4.5) -/

/-- Upper-case hexadecimal digit. -/
def hexDig : Nat → Char
  | 0 => '0' | 1 => '1' | 2 => '2' | 3 => '3' | 4 => '4'
  | 5 => '5' | 6 => '6' | 7 => '7' | 8 => '8' | 9 => '9'
  | 10 => 'A' | 11 => 'B' | 12 => 'C' | 13 => 'D' | 14 => 'E' | _ => 'F'

/-- Percent-encode one byte. -/
def pctByte (b : Nat) : List Char := ['%', hexDig (b / 16), hexDig (b % 16)]

/-- Characters `application/x-www-form-urlencoded` leaves unchanged. -/
def isFormSafe (c : Char) : Bool :=
  c.isAlphanum || c = '*' || c = '-' || c = '.' || c = '_'

/-- `URLSearchParams` encoding of one character: safe characters kept,
space becomes `+`, anything else is the percent-encoded UTF-8 bytes. -/
def formEncodeChar (c : Char) : List Char :=
  if isFormSafe c then [c]
  else if c = ' ' then ['+']
  else concatAll ((utf8Bytes c).map pctByte)

/-- Form-encode a character list. -/
def encList : List Char → List Char
  | [] => []
  | c :: cs => formEncodeChar c ++ encList cs

/-- Form-encode a string. -/
def encodeComponent (s : String) : String := String.mk (encList s.data)

/-- Modelled from the spec: the issue body is the category-prefixed
description (§4.5). -/
def issueBody (category description : String) : String :=
  "Category: " ++ category ++ "\n\n" ++ description

/-- The fixed repository path (`cli.test.ts` / `server.test.ts` assert
this prefix). -/
def repoNewIssueUrl : String :=
  "https://github.com/kitlangton/effect-solutions/issues/new"

/-- Modelled from the spec: the GitHub "new issue" URL built from the
three input fields only (§4.5): `title` and `body` form-encoded as
query parameters against the fixed repository path. -/
def buildIssueUrl (category title description : String) : String :=
  repoNewIssueUrl ++ "?title=" ++ encodeComponent title
    ++ "&body=" ++ encodeComponent (issueBody category description)

/-- Modelled from the spec: the pluggable URL-surfacing strategy (§3). -/
inductive OpenStrategy where
  | browser
  | collect
  | stub
deriving DecidableEq, Repr

/-- The strategy's name, echoed in `openedWith`. -/
def strategyName : OpenStrategy → String
  | .browser => "browser"
  | .collect => "collect"
  | .stub => "stub"

/-- Modelled from the spec: structured issue-request fields (§3). -/
structure IssueRequest where
  category : String
  title : String
  description : String
deriving DecidableEq, Repr

/-- Modelled from the spec: the computed issue outcome (§3). -/
structure IssueResult where
  issueUrl : String
  message : String
  opened : Bool
  openedWith : String
deriving DecidableEq, Repr

/-- Modelled from the spec: `fileIssue(request, strategy)` (§4.5) with
the collect log made explicit: the collect strategy appends the URL to
the log, the others leave it unchanged; the stub and collect strategies
never fail, so `opened` is `true`. -/
def fileIssue (req : IssueRequest) (strategy : OpenStrategy) (collectLog : List String) :
    IssueResult × List String :=
  let url := buildIssueUrl req.category req.title req.description
  let newLog :=
    match strategy with
    | .collect => collectLog ++ [url]
    | _ => collectLog
  (⟨url, "Opened GitHub issue via " ++ strategyName strategy, true, strategyName strategy⟩,
   newLog)

/-! ### Tool dispatch and the dual result representation (§4.4) -/

/-- String to JSON string value. -/
def jstr (s : String) : Json := .str s.data

/-- Structured result of `search_effect_solutions`. -/
def searchResultsJson (rs : List SearchResult) : Json :=
  jobj [("results".data,
    jarr (rs.map (fun r =>
      jobj [("slug".data, jstr r.slug), ("title".data, jstr r.title),
            ("score".data, .num r.score)])))]

/-- Structured result of `open_issue`. -/
def issueResultJson (r : IssueResult) : Json :=
  jobj [("issueUrl".data, jstr r.issueUrl), ("message".data, jstr r.message),
        ("opened".data, .bool r.opened), ("openedWith".data, jstr r.openedWith)]

/-- The static guide of `get_help` (`server.test.ts` checks for the
`MCP Server Guide` and `Available Tools` phrases). -/
def helpGuide : String :=
  "MCP Server Guide\n\nAvailable Tools: search_effect_solutions, open_issue, get_help"

/-- Structured result of `get_help`. -/
def helpJson : Json := jobj [("guide".data, jstr helpGuide)]

/-- Modelled from the spec: the Tool Dispatcher (§4.4) — three tools,
required non-empty arguments, `UnknownTool` otherwise. -/
def toolDispatch (store : List Document) (strategy : OpenStrategy)
    (collectLog : List String) (name : String) (args : Json) :
    Except String (Json × List String) :=
  if name = "search_effect_solutions" then
    match objGet args "query".data with
    | some (.str q) =>
      if q.isEmpty then .error "InvalidArgument: query must be a non-empty string"
      else .ok (searchResultsJson (search store (String.mk q) 10), collectLog)
    | _ => .error "InvalidArgument: query must be a non-empty string"
  else if name = "open_issue" then
    match objGet args "category".data, objGet args "title".data,
        objGet args "description".data with
    | some (.str c), some (.str t), some (.str d) =>
      if c.isEmpty || t.isEmpty || d.isEmpty then
        .error "InvalidArgument: category, title and description are required"
      else
        let r := fileIssue ⟨String.mk c, String.mk t, String.mk d⟩ strategy collectLog
        .ok (issueResultJson r.1, r.2)
    | _, _, _ => .error "InvalidArgument: category, title and description are required"
  else if name = "get_help" then .ok (helpJson, collectLog)
  else .error ("UnknownTool: " ++ name)

/-- One entry of the protocol-level `content` array. -/
structure TextContent where
  ctype : String
  text : String
deriving DecidableEq, Repr

/-- A tool result as it crosses the protocol: the machine-structured
object and its serialized-text rendering. -/
structure ToolResponse where
  structuredContent : Json
  content : List TextContent
deriving DecidableEq

/-- Modelled from the spec: the dual representation is derived from the
structured result by a single encode step (§4.4, design note in §9) —
`content` carries exactly the `JSON.stringify` of `structuredContent`. -/
def wrapResult (v : Json) : ToolResponse :=
  ⟨v, [⟨"text", serializeJson v⟩]⟩

/-- A `tools/call` handled end to end: dispatch, then wrap the
structured result in both representations. -/
def serverToolCall (store : List Document) (strategy : OpenStrategy)
    (collectLog : List String) (name : String) (args : Json) :
    Except String (ToolResponse × List String) :=
  (toolDispatch store strategy collectLog name args).map (fun p => (wrapResult p.1, p.2))

/-! ### Protocol front end (§4.6) -/

/-- Modelled from the spec: protocol states (§4.6). -/
inductive PState where
  | uninitialized
  | initializedPending
  | ready
  | closed
deriving DecidableEq, Repr

/-- A decoded request envelope (an `id` is present: notifications are
handled separately). -/
structure RpcRequest where
  id : Nat
  method : String
  params : Json
deriving DecidableEq

/-- An outgoing response: a JSON-RPC result or error object. -/
inductive RpcOut where
  | result (id : Nat) (v : Json)
  | error (id : Nat) (code : Int) (msg : String)
deriving DecidableEq

/-- The `initialize` result (`server.test.ts` checks
`serverInfo.name === "effect-solutions"` and `capabilities`). -/
def initializeResult : Json :=
  jobj [("protocolVersion".data, jstr "2024-11-05"),
        ("capabilities".data, jobj [("tools".data, jobj []), ("resources".data, jobj [])]),
        ("serverInfo".data,
          jobj [("name".data, jstr "effect-solutions"), ("version".data, jstr "0.1.0")])]

/-- Document resource URI prefix (§6). -/
def docsUriPrefix : String := "effect-docs://docs/"

/-- The aggregate index resource (`server.test.ts` checks its header). -/
def topicsIndex (store : List Document) : String :=
  "# Effect Solutions Documentation Index\n\n"
    ++ String.intercalate "\n" (store.map (fun d => "- " ++ d.slug ++ ": " ++ d.title))

/-- Modelled from the spec: `resources/read` body (§6). -/
def resourceRead (store : List Document) (uri : String) : Except String String :=
  if uri = docsUriPrefix ++ "topics" then .ok (topicsIndex store)
  else
    match store.find? (fun d => docsUriPrefix ++ d.slug == uri) with
    | some d => .ok (renderDoc d)
    | none => .error ("Resource not found: " ++ uri)

/-- The `tools/list` result. -/
def toolsListJson : Json :=
  jobj [("tools".data,
    jarr [jobj [("name".data, jstr "search_effect_solutions")],
          jobj [("name".data, jstr "open_issue")],
          jobj [("name".data, jstr "get_help")]])]

/-- The `resources/list` result. -/
def resourcesListJson (store : List Document) : Json :=
  jobj [("resources".data,
    jarr ((jobj [("uri".data, jstr (docsUriPrefix ++ "topics"))])
      :: store.map (fun d => jobj [("uri".data, jstr (docsUriPrefix ++ d.slug))])))]

/-- JSON form of a wrapped tool response. -/
def toolResponseJson (resp : ToolResponse) : Json :=
  jobj [("structuredContent".data, resp.structuredContent),
        ("content".data,
          jarr (resp.content.map (fun c =>
            jobj [("type".data, jstr c.ctype), ("text".data, jstr c.text)])))]

/-- The protocol-level error code for requests before `Ready`
(JSON-RPC `ServerNotInitialized`). -/
def notInitializedCode : Int := -32002

/-- Modelled from the spec: the request step of the protocol state
machine (§4.6): before `Ready` only `initialize` is accepted and every
other request is answered with a protocol-level JSON-RPC error object
(never a tool-level result, never a fault); in `Ready` the four
methods are served; after `Closed` nothing is. -/
def handleRequest (store : List Document) (strategy : OpenStrategy)
    (st : PState) (collectLog : List String) (req : RpcRequest) :
    (PState × List String) × Option RpcOut :=
  match st with
  | .closed => ((st, collectLog), none)
  | .ready =>
    if req.method = "tools/list" then
      ((st, collectLog), some (.result req.id toolsListJson))
    else if req.method = "resources/list" then
      ((st, collectLog), some (.result req.id (resourcesListJson store)))
    else if req.method = "resources/read" then
      match objGet req.params "uri".data with
      | some (.str u) =>
        match resourceRead store (String.mk u) with
        | .ok text =>
          ((st, collectLog), some (.result req.id
            (jobj [("contents".data,
              jarr [jobj [("uri".data, .str u), ("mimeType".data, jstr "text/markdown"),
                          ("text".data, jstr text)]])])))
        | .error e => ((st, collectLog), some (.error req.id (-32002) e))
      | _ => ((st, collectLog), some (.error req.id (-32602) "Invalid params: uri required"))
    else if req.method = "tools/call" then
      match objGet req.params "name".data, objGet req.params "arguments".data with
      | some (.str n), some args =>
        match serverToolCall store strategy collectLog (String.mk n) args with
        | .ok (resp, log') => ((st, log'), some (.result req.id (toolResponseJson resp)))
        | .error e => ((st, collectLog), some (.error req.id (-32602) e))
      | _, _ =>
        ((st, collectLog), some (.error req.id (-32602) "Invalid params: name and arguments required"))
    else ((st, collectLog), some (.error req.id (-32601) ("Method not found: " ++ req.method)))
  | _ =>
    if req.method = "initialize" then
      ((.initializedPending, collectLog), some (.result req.id initializeResult))
    else
      ((st, collectLog),
       some (.error req.id notInitializedCode ("Server not initialized: " ++ req.method)))

/-- Modelled from the spec: the notification step — only
`notifications/initialized` in the pending state advances to `Ready`
(§4.6). -/
def handleNotification (st : PState) (method : String) : PState :=
  if method = "notifications/initialized" ∧ st = .initializedPending then .ready else st

/-! ### Supporting lemmas for the renderer, search and encoder -/

/-- Placeholder document for `Option.getD` (never the result when the
lookup succeeded). -/
def dummyDoc : Document := ⟨"", "", none, 0, ""⟩

theorem lookupDocs_all_found (store : List Document) :
    ∀ (slugs : List String), (∀ s ∈ slugs, (getDoc store s).isSome = true) →
    lookupDocs store slugs = .ok (slugs.map (fun s => (getDoc store s).getD dummyDoc)) := by
  intro slugs
  induction slugs with
  | nil => intro _; rfl
  | cons s rest ih =>
    intro h
    cases hd : getDoc store s with
    | none =>
      have := h s (by simp)
      rw [hd] at this
      exact Bool.noConfusion this
    | some d =>
      rw [lookupDocs, hd, ih (fun t ht => h t (by simp [ht]))]
      simp [Except.map, hd]

theorem renderDocs_all_found (store : List Document) (slugs : List String)
    (h : ∀ s ∈ slugs, (getDoc store s).isSome = true) :
    renderDocs store slugs
      = .ok (String.intercalate docSep
          (slugs.map (fun s => renderDoc ((getDoc store s).getD dummyDoc)))) := by
  rw [renderDocs, lookupDocs_all_found store slugs h]
  simp only [Except.map, List.map_map]
  rfl

theorem lookupDocs_first_unknown (store : List Document) :
    ∀ (known : List String) (s : String) (rest : List String),
    (∀ t ∈ known, (getDoc store t).isSome = true) → getDoc store s = none →
    lookupDocs store (known ++ s :: rest) = .error ("Unknown doc slug: " ++ s) := by
  intro known
  induction known with
  | nil =>
    intro s rest _ hs
    rw [List.nil_append, lookupDocs, hs]
  | cons t ks ih =>
    intro s rest h hs
    cases hd : getDoc store t with
    | none =>
      have := h t (by simp)
      rw [hd] at this
      exact Bool.noConfusion this
    | some d =>
      rw [List.cons_append, lookupDocs, hd,
        ih s rest (fun u hu => h u (by simp [hu])) hs]
      rfl

theorem trimL_all_ws (q : List Char) (h : q.all Char.isWhitespace = true) :
    trimL q = [] := by
  have hdrop : q.dropWhile Char.isWhitespace = [] := by
    rw [List.dropWhile_eq_nil_iff]
    intro x hx
    exact (List.all_eq_true.mp h) x hx
  rw [trimL, hdrop]
  simp

theorem search_blank (store : List Document) (q : String) (limit : Nat)
    (h : q.data.all Char.isWhitespace = true) : search store q limit = [] := by
  rw [search, trimL_all_ws q.data h]
  simp

/-! ### Validity of the form encoding -/

/-- Upper-case hexadecimal digit character. -/
def isHexUp (c : Char) : Bool := c.isDigit || ('A' ≤ c && c ≤ 'F')

/-- A correctly form-encoded character sequence: every `%` is followed
by two upper-case hexadecimal digits and every other character is a
form-safe character or `+`. -/
def encOk : List Char → Bool
  | [] => true
  | c :: rest =>
    if c = '%' then
      match rest with
      | a :: b :: rest' => isHexUp a && isHexUp b && encOk rest'
      | _ => false
    else (isFormSafe c || c = '+') && encOk rest

theorem encOk_pct (a b : Char) (rest : List Char) :
    encOk ('%' :: a :: b :: rest) = (isHexUp a && isHexUp b && encOk rest) := rfl

theorem encOk_cons (c : Char) (rest : List Char) (h : ¬ c = '%') :
    encOk (c :: rest) = ((isFormSafe c || c = '+') && encOk rest) := by
  rw [encOk.eq_def]
  simp only []
  rw [if_neg h]

theorem hexDig_isHexUp : ∀ d, d < 16 → isHexUp (hexDig d) = true := by decide

theorem utf8Bytes_bound (c : Char) : ∀ b ∈ utf8Bytes c, b < 256 := by
  have hv : c.toNat < 0xd800 ∨ (0xdfff < c.toNat ∧ c.toNat < 0x110000) := c.valid
  intro b hb
  by_cases h1 : c.toNat < 0x80
  · simp [utf8Bytes, h1] at hb
    omega
  · by_cases h2 : c.toNat < 0x800
    · simp [utf8Bytes, h1, h2] at hb
      rcases hb with hb | hb <;> omega
    · by_cases h3 : c.toNat < 0x10000
      · simp [utf8Bytes, h1, h2, h3] at hb
        rcases hb with hb | hb | hb <;> omega
      · simp [utf8Bytes, h1, h2, h3] at hb
        rcases hb with hb | hb | hb | hb <;> omega

theorem encOk_pcts (bs : List Nat) (rest : List Char) (h : ∀ b ∈ bs, b < 256) :
    encOk (concatAll (bs.map pctByte) ++ rest) = encOk rest := by
  induction bs with
  | nil => simp [concatAll]
  | cons b bs ih =>
    have hb : b < 256 := h b (by simp)
    have hhi := hexDig_isHexUp (b / 16) (by omega)
    have hlo := hexDig_isHexUp (b % 16) (by omega)
    rw [List.map_cons, concatAll]
    have : (pctByte b ++ concatAll (bs.map pctByte)) ++ rest
        = '%' :: hexDig (b / 16) :: hexDig (b % 16) :: (concatAll (bs.map pctByte) ++ rest) := by
      simp [pctByte]
    rw [this, encOk_pct, hhi, hlo, ih (fun x hx => h x (by simp [hx]))]
    rfl

theorem encOk_encList : ∀ cs : List Char, encOk (encList cs) = true := by
  intro cs
  induction cs with
  | nil => rfl
  | cons c cs ih =>
    rw [encList]
    by_cases hsafe : isFormSafe c = true
    · have hne : ¬ c = '%' := by
        intro he
        subst he
        exact absurd hsafe (by decide)
      rw [formEncodeChar, if_pos hsafe]
      rw [List.cons_append, List.nil_append, encOk_cons c _ hne, hsafe, ih]
      rfl
    · by_cases hsp : c = ' '
      · rw [formEncodeChar, if_neg hsafe, if_pos hsp]
        rw [List.cons_append, List.nil_append,
          encOk_cons '+' _ (by decide), ih]
        rfl
      · rw [formEncodeChar, if_neg hsafe, if_neg hsp]
        rw [encOk_pcts (utf8Bytes c) (encList cs) (utf8Bytes_bound c), ih]

/-! ## The claims -/

set_option maxRecDepth 10000

/-- C1: for every sequence of known slugs, `renderDocs` renders exactly
the per-slug blocks in the order given by the input sequence (joined by
the horizontal-rule separator): a document's `order` field plays no
part, and a slug occurring twice in the input is rendered twice. -/
theorem claim_C1_renderDocs_input_order (store : List Document) (slugs : List String)
    (h : ∀ s ∈ slugs, (getDoc store s).isSome = true) :
    renderDocs store slugs
      = .ok (String.intercalate docSep
          (slugs.map (fun s => renderDoc ((getDoc store s).getD dummyDoc)))) :=
  renderDocs_all_found store slugs h

/-- C1 witness: rendering `["error-handling", "overview", "overview"]`
over the sample corpus — the input order is the reverse of the `order`
fields and contains a duplicate. -/
theorem claim_C1_witness :
    renderDocs sampleDocs ["error-handling", "overview", "overview"]
      = .ok (String.intercalate docSep
          (["error-handling", "overview", "overview"].map
            (fun s => renderDoc ((getDoc sampleDocs s).getD dummyDoc)))) :=
  claim_C1_renderDocs_input_order sampleDocs ["error-handling", "overview", "overview"]
    (by decide)

/-- C2: `renderDocs` of the empty sequence is the empty string; with an
unknown slug anywhere in the input it fails atomically — the result is
an error value naming the first unknown slug, carrying no rendered
output — and in particular `renderDocs ["nonexistent"]` fails naming
`nonexistent`. -/
theorem claim_C2_renderDocs_unknown_atomic (store : List Document) (known : List String)
    (s : String) (rest : List String)
    (hknown : ∀ t ∈ known, (getDoc store t).isSome = true)
    (hs : getDoc store s = none) :
    renderDocs store [] = .ok ""
    ∧ renderDocs store (known ++ s :: rest) = .error ("Unknown doc slug: " ++ s)
    ∧ renderDocs sampleDocs ["nonexistent"] = .error "Unknown doc slug: nonexistent" := by
  refine ⟨rfl, ?_, rfl⟩
  rw [renderDocs, lookupDocs_first_unknown store known s rest hknown hs]
  rfl

/-- C2 witness: an unknown slug after a known one fails naming the
unknown slug, and the empty input renders to the empty string. -/
theorem claim_C2_witness :
    renderDocs sampleDocs [] = .ok ""
    ∧ renderDocs sampleDocs (["overview"] ++ "missing-doc" :: ["error-handling"])
      = .error ("Unknown doc slug: " ++ "missing-doc")
    ∧ renderDocs sampleDocs ["nonexistent"] = .error "Unknown doc slug: nonexistent" :=
  claim_C2_renderDocs_unknown_atomic sampleDocs ["overview"] "missing-doc"
    ["error-handling"] (by decide) (by decide)

/-- C3: `fileIssue` computes `issueUrl` deterministically from the
three input fields alone — the result is independent of the strategy
and of any prior collect-log state, so identical inputs always yield
the identical string — and the URL is the fixed GitHub new-issue path
with `title` and the category-prefixed body as validly percent-encoded
query parameters (every `%` is followed by two upper-case hex digits,
all other characters are form-safe or `+`). -/
theorem claim_C3_issueUrl_deterministic_encoded
    (category title description : String) (strategy : OpenStrategy) (log : List String) :
    (fileIssue ⟨category, title, description⟩ strategy log).1.issueUrl
        = buildIssueUrl category title description
    ∧ (∀ (strategy' : OpenStrategy) (log' : List String),
        (fileIssue ⟨category, title, description⟩ strategy log).1.issueUrl
          = (fileIssue ⟨category, title, description⟩ strategy' log').1.issueUrl)
    ∧ buildIssueUrl category title description
        = repoNewIssueUrl ++ "?title=" ++ encodeComponent title
          ++ "&body=" ++ encodeComponent (issueBody category description)
    ∧ encOk (encodeComponent title).data = true
    ∧ encOk (encodeComponent (issueBody category description)).data = true :=
  ⟨rfl, fun _ _ => rfl, rfl,
   encOk_encList title.data, encOk_encList (issueBody category description).data⟩

/-- C4: every successful tool call (any of the three tools) returns the
result in two representations — the machine-structured object and the
serialized text — and parsing the text of every content entry yields
exactly the structured object.  (`wfJ` confines the statement to values
on which the modelled serializer agrees with `JSON.stringify`; every
value the three tools emit satisfies it.) -/
theorem claim_C4_dual_representation (store : List Document) (strategy : OpenStrategy)
    (log : List String) (name : String) (args : Json) (resp : ToolResponse)
    (log' : List String)
    (hok : serverToolCall store strategy log name args = .ok (resp, log'))
    (hwf : wfJ resp.structuredContent = true) :
    ∀ c ∈ resp.content, parseJson c.text = some resp.structuredContent := by
  cases hd : toolDispatch store strategy log name args with
  | error e =>
    rw [serverToolCall, hd] at hok
    exact absurd hok (by simp [Except.map])
  | ok p =>
    rw [serverToolCall, hd] at hok
    simp only [Except.map, Except.ok.injEq, Prod.mk.injEq] at hok
    obtain ⟨h1, h2⟩ := hok
    subst h1
    intro c hc
    simp only [wrapResult, List.mem_singleton] at hc
    subst hc
    exact parseJson_serializeJson p.1

/-- C4 witness: an `open_issue` call under the stub strategy — the text
content parses back to the structured content. -/
theorem claim_C4_witness :
    serverToolCall sampleDocs .stub [] "open_issue"
        (jobj [("category".data, jstr "Fix"), ("title".data, jstr "Test title"),
               ("description".data, jstr "Body")])
      = .ok (wrapResult (issueResultJson
          (fileIssue ⟨"Fix", "Test title", "Body"⟩ .stub []).1), [])
    ∧ ∀ c ∈ (wrapResult (issueResultJson
          (fileIssue ⟨"Fix", "Test title", "Body"⟩ .stub []).1)).content,
        parseJson c.text
          = some (wrapResult (issueResultJson
              (fileIssue ⟨"Fix", "Test title", "Body"⟩ .stub []).1)).structuredContent :=
  ⟨rfl,
   claim_C4_dual_representation sampleDocs .stub [] "open_issue"
     (jobj [("category".data, jstr "Fix"), ("title".data, jstr "Test title"),
            ("description".data, jstr "Body")])
     (wrapResult (issueResultJson (fileIssue ⟨"Fix", "Test title", "Body"⟩ .stub []).1))
     [] rfl (by decide)⟩

/-- C5: `search` returns the empty sequence for the empty-string query
and, because the query is trimmed before matching, for every
all-whitespace query as well — never the full corpus. -/
theorem claim_C5_search_blank_empty (store : List Document) (q : String) (limit : Nat)
    (h : q.data.all Char.isWhitespace = true) :
    search store "" limit = [] ∧ search store q limit = [] :=
  ⟨search_blank store "" limit (by decide), search_blank store q limit h⟩

/-- C5 witness: the empty and a three-space query over the sample
corpus. -/
theorem claim_C5_witness :
    search sampleDocs "" 10 = [] ∧ search sampleDocs "   " 10 = [] :=
  claim_C5_search_blank_empty sampleDocs "   " 10 (by decide)

/-- C6: `fileIssue` with the collect strategy reports `opened = true`
and `openedWith = "collect"`, and the new collect log is the old one
with exactly one entry appended, equal to the returned `issueUrl`. -/
theorem claim_C6_collect_strategy (req : IssueRequest) (log : List String) :
    (fileIssue req .collect log).1.opened = true
    ∧ (fileIssue req .collect log).1.openedWith = "collect"
    ∧ (fileIssue req .collect log).2 = log ++ [(fileIssue req .collect log).1.issueUrl] :=
  ⟨rfl, rfl, rfl⟩

/-- C7: a malformed line (not JSON, or JSON without the required
`jsonrpc`/`id` protocol fields) is skipped without any error — the
state is unchanged — and the remaining lines of the stream are
processed exactly as if the malformed line were absent. -/
theorem claim_C7_malformed_line_skipped (st : ClientState) (line : String)
    (pre post : List String) (h : malformedLine line = true) :
    handleLine st line = st
    ∧ processLines st (pre ++ line :: post) = processLines st (pre ++ post) := by
  refine ⟨handleLine_malformed st line h, ?_⟩
  rw [processLines, processLines, List.foldl_append, List.foldl_append,
    List.foldl_cons, handleLine_malformed _ line h]

/-- A well-formed response line for request id `n`, as the server emits
it. -/
def respLine (n : Nat) : String :=
  serializeJson (jobj [("jsonrpc".data, jstr "2.0"), ("id".data, .num n)])

/-- C7 witness: a non-JSON line between two well-formed response lines
is skipped and the rest of the stream is still processed. -/
theorem claim_C7_witness :
    handleLine ⟨[1, 2], [], []⟩ "not json" = ⟨[1, 2], [], []⟩
    ∧ processLines ⟨[1, 2], [], []⟩ ([respLine 1] ++ "not json" :: [respLine 2])
      = processLines ⟨[1, 2], [], []⟩ ([respLine 1] ++ [respLine 2]) :=
  claim_C7_malformed_line_skipped ⟨[1, 2], [], []⟩ "not json"
    [respLine 1] [respLine 2] (by decide)

/-- C8 counterexample: the claim as stated — the decoded complete lines
depend only on the byte sequence, not on its chunk division — is false
for the client's decoder: `decoder.decode(chunk)` is called per chunk
with no `stream: true`, so dividing the bytes of `é\n` (`C3 A9 0A`)
inside the two-byte character yields two U+FFFD replacement characters
instead of `é`. -/
theorem claim_C8_counterexample :
    concatAll [[0xC3], [0xA9, 0x0A]] = concatAll [[0xC3, 0xA9, 0x0A]]
    ∧ (clientFeedBytes [[0xC3], [0xA9, 0x0A]]).1
      ≠ (clientFeedBytes [[0xC3, 0xA9, 0x0A]]).1 := by
  refine ⟨by decide, by decide⟩

/-- C8 (amended): the buffer retains the trailing partial line across
reads, and for every byte division whose chunk boundaries fall on
character (UTF-8 scalar) boundaries the complete lines decoded — and
the final buffer — equal those of splitting the undivided stream: the
output is independent of such a division. -/
theorem claim_C8_chunk_invariance (charChunks : List (List Char)) :
    clientFeedBytes (charChunks.map utf8EncodeAll) = splitCh (concatAll charChunks) := by
  rw [clientFeedBytes]
  have hdec : (charChunks.map utf8EncodeAll).map decodeUtf8 = charChunks := by
    rw [List.map_map]
    have hcomp : decodeUtf8 ∘ utf8EncodeAll = id :=
      funext fun cs => decodeUtf8_utf8EncodeAll cs
    rw [hcomp, List.map_id]
  rw [hdec]
  have h := feedAll_eq_splitCh charChunks [] rfl
  rw [List.nil_append] at h
  exact h

/-- C9: in either state before `Ready` (`Uninitialized` or the
initialized-pending condition), every request other than `initialize`
is answered with the protocol-level JSON-RPC error object carrying the
server-not-initialized code — the state and collect log are unchanged,
no tool runs, and nothing is thrown (the handler is total). -/
theorem claim_C9_pre_ready_protocol_error (store : List Document)
    (strategy : OpenStrategy) (st : PState) (log : List String) (req : RpcRequest)
    (hst : st = .uninitialized ∨ st = .initializedPending)
    (hm : req.method ≠ "initialize") :
    handleRequest store strategy st log req
      = ((st, log), some (.error req.id notInitializedCode
          ("Server not initialized: " ++ req.method))) := by
  rcases hst with h | h <;> subst h <;> rw [handleRequest.eq_def] <;> dsimp only <;>
    rw [if_neg hm]

/-- C9 witness: `tools/list` sent to the uninitialized server is
answered with the not-initialized protocol error. -/
theorem claim_C9_witness :
    handleRequest sampleDocs .stub .uninitialized [] ⟨1, "tools/list", jobj []⟩
      = ((.uninitialized, []), some (.error 1 notInitializedCode
          ("Server not initialized: " ++ "tools/list"))) :=
  claim_C9_pre_ready_protocol_error sampleDocs .stub .uninitialized []
    ⟨1, "tools/list", jobj []⟩ (Or.inl rfl) (by decide)

/-- C10: in the test client, a request id is settled at most once:
a response matching a pending id yields the state with the entry
deleted and the resolution recorded (so the entry is gone before the
callback result is visible), the timeout path yields the state with
the entry deleted and the rejection recorded, a response whose id has
no pending entry leaves the state unchanged, and over any sequence of
incoming lines the number of resolutions of an id exceeds its previous
resolutions by at most one. -/
theorem claim_C10_settled_at_most_once (st : ClientState) (n : Nat)
    (lines : List String) (hcnt : st.pending.count n ≤ 1) :
    (st.pending.contains n = true →
      respond st n = ⟨st.pending.erase n, st.resolvedIds ++ [n], st.rejectedIds⟩
      ∧ (respond st n).pending.contains n = false)
    ∧ (st.pending.contains n = false → respond st n = st)
    ∧ (fireTimeout st n = ⟨st.pending.erase n, st.resolvedIds, st.rejectedIds ++ [n]⟩
      ∧ (fireTimeout st n).pending.contains n = false)
    ∧ (processLines st lines).resolvedIds.count n ≤ st.resolvedIds.count n + 1 := by
  refine ⟨?_, respond_not_pending st n, ⟨rfl, ?_⟩, processLines_count_le lines st n hcnt⟩
  · intro h
    refine ⟨respond_pending st n h, ?_⟩
    rw [respond_pending st n h]
    rw [contains_false_iff]
    intro hmem2
    have hpos := List.count_pos_iff.mpr hmem2
    rw [List.count_erase_self] at hpos
    omega
  · simp only [fireTimeout]
    rw [contains_false_iff]
    intro hmem2
    have hpos := List.count_pos_iff.mpr hmem2
    rw [List.count_erase_self] at hpos
    omega

/-- C10 witness: a single pending id 7 resolved by a matching response
(and settled only once even when the response line repeats), an
unmatched response leaving the state unchanged, and the timeout path. -/
theorem claim_C10_witness :
    respond ⟨[7], [], []⟩ 7 = ⟨[], [7], []⟩
    ∧ respond ⟨[9], [], []⟩ 7 = ⟨[9], [], []⟩
    ∧ fireTimeout ⟨[7], [], []⟩ 7 = ⟨[], [], [7]⟩
    ∧ (processLines ⟨[7], [], []⟩ [respLine 7, respLine 7]).resolvedIds.count 7 ≤ 0 + 1 := by
  have h1 := claim_C10_settled_at_most_once ⟨[7], [], []⟩ 7 [respLine 7, respLine 7]
    (by decide)
  have h2 := claim_C10_settled_at_most_once ⟨[9], [], []⟩ 7 [] (by decide)
  refine ⟨((h1.1 (by decide)).1).trans (by decide),
    (h2.2.1 (by decide)).trans (by decide),
    (h1.2.2.1.1).trans (by decide), ?_⟩
  exact h1.2.2.2
